import Mathlib

/-!
# MIRACL compiler/hardware definitions (`mirdef.h`, 32-bit build)

A verification development over `src/lib/MiraclCompilation/32bit/c/mirdef.h`.

The header consists of object-like `#define` directives only.  It is embedded
twice:

* as data (`mirdef`): the directives in source order, each with its macro name
  and its replacement text, so that "is defined" / "is not defined" become
  decidable facts about the header;
* as values: one Lean definition per macro, carrying the source's name, with
  C's unsigned arithmetic made explicit (`% 2 ^ w`) and undefined behaviour
  reported as `none`.
-/

namespace Mirdef

/-! ## The header as a list of directives -/

/-- One `#define` directive: the macro name and its replacement text. -/
structure Directive where
  name : String
  body : String
  deriving DecidableEq, Repr

/-- The directives of `mirdef.h`, in source order (lines 5 to 18). -/
def mirdef : List Directive :=
  [ ⟨"MR_BIG_ENDIAN", ""⟩,
    ⟨"MIRACL", "32"⟩,
    ⟨"mr_utype", "int"⟩,
    ⟨"mr_unsign32", "unsigned int"⟩,
    ⟨"mr_unsign64", "unsigned long"⟩,
    ⟨"MR_IBITS", "32"⟩,
    ⟨"MR_LBITS", "32"⟩,
    ⟨"MR_FLASH", "52"⟩,
    ⟨"MAXBASE", "((mr_small)1<<(MIRACL-1))"⟩,
    ⟨"MR_GENERIC_MT", ""⟩ ]

/-- The preprocessor's `defined(name)` after the header has been read. -/
def isDefined (name : String) : Bool :=
  mirdef.any (fun d => d.name == name)

/-- Does `p` start the character list? -/
def startsWith : List Char → List Char → Bool
  | [], _ => true
  | _ :: _, [] => false
  | p :: ps, c :: cs => p == c && startsWith ps cs

/-- Does `p` occur as a contiguous block of the character list? -/
def occursIn (p : List Char) : List Char → Bool
  | [] => p.isEmpty
  | c :: cs => startsWith p (c :: cs) || occursIn p cs

/-- Does the macro name contain the given word, letter case ignored? -/
def mentions (word name : String) : Bool :=
  occursIn (word.data.map Char.toUpper) (name.data.map Char.toUpper)

/-- Byte orders a configuration can select. -/
inductive ByteOrder
  | big
  | little
  deriving DecidableEq, Repr

/-- The byte order selected by the endianness flags, tested the way the library
tests them (`#ifdef MR_BIG_ENDIAN`, `#ifdef MR_LITTLE_ENDIAN`): exactly one of
the two flags has to be defined for the configuration to name a byte order. -/
def byte_order : Option ByteOrder :=
  match isDefined "MR_BIG_ENDIAN", isDefined "MR_LITTLE_ENDIAN" with
  | true, false => some ByteOrder.big
  | false, true => some ByteOrder.little
  | _, _ => none

/-! ## The header as values -/

/-- Line 6, `#define MIRACL 32`: the word size in bits. -/
def MIRACL : Nat := 32

/-- Line 12, `#define MR_IBITS 32`: the declared width of `int`. -/
def MR_IBITS : Nat := 32

/-- Line 13, `#define MR_LBITS 32`: the declared width of `long`. -/
def MR_LBITS : Nat := 32

/-- Line 15, `#define MR_FLASH 52`: the floating-point mantissa width hint. -/
def MR_FLASH : Nat := 52

/-- The C integer types that the header's replacement lists name, together with
the unsigned counterpart of `long` needed to close the set under `unsigned`. -/
inductive CType
  | int
  | long
  | unsignedInt
  | unsignedLong
  deriving DecidableEq, Repr

namespace CType

/-- Is the type unsigned? -/
def isUnsigned : CType → Bool
  | int => false
  | long => false
  | unsignedInt => true
  | unsignedLong => true

/-- The type's width in bits, as the header declares it: `MR_IBITS` for `int`
and `unsigned int`, `MR_LBITS` for `long` and `unsigned long`. -/
def bits : CType → Nat
  | int => MR_IBITS
  | long => MR_LBITS
  | unsignedInt => MR_IBITS
  | unsignedLong => MR_LBITS

/-- The `unsigned` counterpart of a type (C's `unsigned T`). -/
def toUnsigned : CType → CType
  | int => unsignedInt
  | long => unsignedLong
  | unsignedInt => unsignedInt
  | unsignedLong => unsignedLong

/-- The integers a type represents: `0 .. 2^w - 1` for an unsigned type of
width `w`, `-2^(w-1) .. 2^(w-1) - 1` for a signed one. -/
def holds (t : CType) (v : Int) : Bool :=
  if t.isUnsigned then
    decide (0 ≤ v) && decide (v < 2 ^ t.bits)
  else
    decide (-(2 ^ (t.bits - 1)) ≤ v) && decide (v < 2 ^ (t.bits - 1))

/-- Conversion of a non-negative integer to an unsigned type of the given
type's width: reduction modulo `2 ^ w`. -/
def wrap (t : CType) (v : Nat) : Nat :=
  v % 2 ^ t.bits

end CType

/-- Line 7, `#define mr_utype int`: the underlying type of a word. -/
def mr_utype : CType := CType.int

/-- Line 9, `#define mr_unsign32 unsigned int`. -/
def mr_unsign32 : CType := CType.unsignedInt

/-- Line 10, `#define mr_unsign64 unsigned long`. -/
def mr_unsign64 : CType := CType.unsignedLong

/-- Modelled from the spec: the digit type `mr_small`, whose typedef
(`unsigned mr_utype`) lives in the library's main header, not in `mirdef.h`.
The spec describes a digit as "an unsigned integer of the configured machine
word width"; the word's underlying type is `mr_utype`. -/
def mr_small : CType := mr_utype.toUnsigned

/-- C's `x << n` for a left operand of unsigned type `t`: undefined (`none`)
when the count is negative or not below the width of `t`, otherwise
`x * 2 ^ n` reduced modulo `2 ^ width`. -/
def shl (t : CType) (x : Nat) (n : Int) : Option Nat :=
  if 0 ≤ n ∧ n < t.bits then some ((x * 2 ^ n.toNat) % 2 ^ t.bits) else none

/-- Line 16, `#define MAXBASE ((mr_small)1<<(MIRACL-1))`: the constant `1`
converted to `mr_small` and shifted left by `MIRACL - 1` (an `int` expression). -/
def MAXBASE : Option Nat :=
  shl mr_small (mr_small.wrap 1) ((MIRACL : Int) - 1)

/-- Number of bits of a non-negative integer (0 for 0), by repeated halving;
the first argument bounds the number of halvings. -/
def bit_length_aux : Nat → Nat → Nat
  | 0, _ => 0
  | fuel + 1, v => if v = 0 then 0 else bit_length_aux fuel (v / 2) + 1

/-- Number of bits of a non-negative integer: `v` halvings always suffice. -/
def bit_length (v : Nat) : Nat :=
  bit_length_aux v v

/-- Significand of `p` bits: a non-negative integer rounded toward zero to its
`p` most significant bits (the bits below them are cleared).  `MR_FLASH` is
such a `p`; a value is kept "without loss" when rounding returns it unchanged. -/
def to_mantissa (p v : Nat) : Nat :=
  (v / 2 ^ (bit_length v - p)) * 2 ^ (bit_length v - p)

/-! ## The digit store the header configures -/

/-- Modelled from the spec: the radix of the digit store, "radix =
2^(word bit-width)"; the word bit-width is the header's `MIRACL`. -/
def radix : Nat := 2 ^ MIRACL

/-- Modelled from the spec: the digits of a non-negative integer in the
configured radix, least significant first, without a most significant zero
digit ("trailing zero digits trimmed", zero has length 0).  The first argument
bounds the number of digits produced. -/
def digits_of : Nat → Nat → List Nat
  | 0, _ => []
  | fuel + 1, n => if n = 0 then [] else n % radix :: digits_of fuel (n / radix)

/-- Modelled from the spec: the order in which a digit sequence is kept, "most-
or least-significant first per a configured endianness flag".  The argument is
in least-significant-first order; the function is its own inverse. -/
def stored (ls : List Nat) : List Nat :=
  match byte_order with
  | some ByteOrder.big => ls.reverse
  | _ => ls

/-- Modelled from the spec: `to_bignum`, construction of a BigNum magnitude
"from a primitive integer".  Every integer `n` has at most `n` digits. -/
def to_bignum (n : Nat) : List Nat :=
  stored (digits_of n n)

/-- Modelled from the spec: propagation of a carry into a least-significant-
first sequence.  Each column sum is formed in "a wider intermediate
representation" and split into a digit and the next carry. -/
def add_carry : List Nat → Nat → List Nat
  | [], c => if c = 0 then [] else [c]
  | a :: as, c => (a + c) % radix :: add_carry as ((a + c) / radix)

/-- Modelled from the spec: digit-wise addition "with carry/borrow propagation"
of two least-significant-first sequences and an incoming carry. -/
def add_digits : List Nat → List Nat → Nat → List Nat
  | [], bs, c => add_carry bs c
  | a :: as, [], c => add_carry (a :: as) c
  | a :: as, b :: bs, c => (a + b + c) % radix :: add_digits as bs ((a + b + c) / radix)

/-- Modelled from the spec: normalization, "trimming leading zero digits after
any mutation", on a least-significant-first sequence (the most significant
digit is the last one). -/
def normalize : List Nat → List Nat
  | [] => []
  | d :: ds =>
    match normalize ds with
    | [] => if d = 0 then [] else [d]
    | e :: es => d :: e :: es

/-- Modelled from the spec: addition of two BigNum magnitudes, the `+` of
`to_bignum(a) + to_bignum(b)`. -/
def bignum_add (a b : List Nat) : List Nat :=
  stored (normalize (add_digits (stored a) (stored b) 0))

/-- The integer denoted by a least-significant-first digit sequence. -/
def value_of : List Nat → Nat
  | [] => 0
  | d :: ds => d + radix * value_of ds

/-- Modelled from the spec: the integer a stored BigNum magnitude equals. -/
def bignum_value (a : List Nat) : Nat :=
  value_of (stored a)

/-! ## Supporting lemmas -/

/-- The radix is positive. -/
theorem radix_pos : 0 < radix := by
  unfold radix MIRACL
  decide

/-- The radix exceeds one, so dividing by it makes a positive integer smaller. -/
theorem one_lt_radix : 1 < radix := by
  unfold radix MIRACL
  decide

/-- The flags of the header select the big-endian order. -/
theorem byte_order_big : byte_order = some ByteOrder.big := by
  decide

/-- Under the header, the stored order is the reverse of least-significant-first. -/
theorem stored_eq_reverse (ls : List Nat) : stored ls = ls.reverse := by
  simp [stored, byte_order_big]

/-- Changing the order twice gives the sequence back. -/
theorem stored_stored (ls : List Nat) : stored (stored ls) = ls := by
  simp [stored_eq_reverse]

/-- Propagating a carry adds it to the denoted integer. -/
theorem value_of_add_carry (as : List Nat) (c : Nat) :
    value_of (add_carry as c) = value_of as + c := by
  induction as generalizing c with
  | nil =>
    by_cases hc : c = 0
    · simp [add_carry, value_of, hc]
    · simp [add_carry, value_of, hc]
  | cons a as ih =>
    simp only [add_carry, value_of, ih]
    have h := Nat.mod_add_div (a + c) radix
    rw [Nat.mul_add]
    omega

/-- Digit-wise addition denotes the sum of the operands and the incoming carry. -/
theorem value_of_add_digits (as bs : List Nat) (c : Nat) :
    value_of (add_digits as bs c) = value_of as + value_of bs + c := by
  induction as generalizing bs c with
  | nil => simp [add_digits, value_of_add_carry, value_of]
  | cons a as ih =>
    cases bs with
    | nil =>
      simp only [add_digits, value_of_add_carry, value_of]
      have h := Nat.mod_add_div (a + c) radix
      rw [Nat.mul_add]
      omega
    | cons b bs =>
      simp only [add_digits, value_of, ih]
      have h := Nat.mod_add_div (a + b + c) radix
      rw [Nat.mul_add, Nat.mul_add]
      omega

/-- Trimming most significant zero digits keeps the denoted integer. -/
theorem value_of_normalize (ls : List Nat) : value_of (normalize ls) = value_of ls := by
  induction ls with
  | nil => simp [normalize]
  | cons d ds ih =>
    simp only [normalize]
    cases h : normalize ds with
    | nil =>
      rw [h] at ih
      by_cases hd : d = 0
      · simp [value_of, hd, ← ih]
      · simp [value_of, hd, ← ih]
    | cons e es =>
      rw [h] at ih
      simp [value_of, ← ih]

/-- With enough fuel the digits produced denote the integer they were taken from. -/
theorem value_of_digits_of (fuel n : Nat) (h : n ≤ fuel) :
    value_of (digits_of fuel n) = n := by
  induction fuel generalizing n with
  | zero =>
    have : n = 0 := by omega
    simp [digits_of, value_of, this]
  | succ k ih =>
    by_cases hn : n = 0
    · simp [digits_of, value_of, hn]
    · have hlt : n / radix < n := Nat.div_lt_self (Nat.pos_of_ne_zero hn) one_lt_radix
      have hk : n / radix ≤ k := by omega
      simp only [digits_of, hn, if_false, value_of, ih _ hk]
      exact Nat.mod_add_div n radix

/-- Addition of magnitudes denotes addition of integers, for all operands. -/
theorem bignum_value_add (a b : List Nat) :
    bignum_value (bignum_add a b) = bignum_value a + bignum_value b := by
  simp [bignum_value, bignum_add, stored_stored, value_of_normalize, value_of_add_digits]

/-- Construction from a primitive integer denotes that integer. -/
theorem bignum_value_to_bignum (n : Nat) : bignum_value (to_bignum n) = n := by
  simp [bignum_value, to_bignum, stored_stored, value_of_digits_of]

/-- No digit is produced exactly when the fuel or the integer is zero. -/
theorem digits_of_eq_nil (fuel m : Nat) : digits_of fuel m = [] ↔ fuel = 0 ∨ m = 0 := by
  cases fuel with
  | zero => simp [digits_of]
  | succ k =>
    by_cases hm : m = 0
    · simp [digits_of, hm]
    · simp [digits_of, hm]

/-- An integer takes at most one digit exactly when it is below the radix. -/
theorem to_bignum_length_le_one (n : Nat) : (to_bignum n).length ≤ 1 ↔ n < radix := by
  unfold to_bignum
  rw [stored_eq_reverse, List.length_reverse]
  cases n with
  | zero => simp [digits_of, radix_pos]
  | succ k =>
    have hdiv : (k + 1) / radix = 0 ↔ k + 1 < radix :=
      Nat.div_eq_zero_iff radix_pos
    have hlen : (digits_of k ((k + 1) / radix)).length + 1 ≤ 1 ↔
        digits_of k ((k + 1) / radix) = [] := by
      rw [← List.length_eq_zero]
      omega
    simp only [digits_of, Nat.succ_ne_zero, if_false, List.length_cons, hlen,
      digits_of_eq_nil, hdiv]
    constructor
    · rintro (h | h)
      · have := one_lt_radix
        omega
      · exact h
    · intro h
      exact Or.inr h

/-- An integer below a power of two has at most that many bits. -/
theorem bit_length_aux_le (fuel v p : Nat) (h : v < 2 ^ p) : bit_length_aux fuel v ≤ p := by
  induction fuel generalizing v p with
  | zero => simp [bit_length_aux]
  | succ k ih =>
    by_cases hv : v = 0
    · simp [bit_length_aux, hv]
    · cases p with
      | zero =>
        simp at h
        exact absurd h hv
      | succ q =>
        simp only [bit_length_aux, hv, if_false]
        have hq : v / 2 < 2 ^ q := by
          rw [Nat.pow_succ] at h
          omega
        have := ih (v / 2) q hq
        omega

/-- A mantissa of p bits keeps every integer below that power of two unchanged. -/
theorem to_mantissa_of_lt (p v : Nat) (h : v < 2 ^ p) : to_mantissa p v = v := by
  have hb : bit_length v - p = 0 := Nat.sub_eq_zero_of_le (bit_length_aux_le v v p h)
  simp [to_mantissa, hb]

/-! ## The claims -/

/-- Claim C1: the header fixes the word size at 32 bits (`MIRACL = 32`); the
unsigned word type `mr_unsign32` is `unsigned int`, whose declared width is
`MR_IBITS = 32 = MIRACL`; it is the digit type (the unsigned counterpart of
`mr_utype`); and its values are exactly the integers `d` with
`0 ≤ d < 2 ^ 32`. -/
theorem digit_is_unsigned_word :
    MIRACL = 32 ∧
    mr_unsign32 = CType.unsignedInt ∧
    mr_unsign32.isUnsigned = true ∧
    mr_unsign32.bits = MR_IBITS ∧
    MR_IBITS = 32 ∧
    MR_IBITS = MIRACL ∧
    mr_small = mr_unsign32 ∧
    ∀ d : Int, mr_unsign32.holds d = true ↔ 0 ≤ d ∧ d < 2 ^ 32 := by
  refine ⟨rfl, rfl, rfl, rfl, rfl, rfl, rfl, ?_⟩
  intro d
  simp [CType.holds, mr_unsign32, CType.isUnsigned, CType.bits, MR_IBITS]

/-- Claim C2 as stated fails: it is not the case that the radix is `2 ^ 32` and
`MAXBASE` is that radix; `MAXBASE` evaluates to `2 ^ 31`. -/
theorem MAXBASE_is_not_radix : ¬ (radix = 2 ^ 32 ∧ MAXBASE = some radix) := by
  decide

/-- Claim C2, amended: the radix of the digit representation is
`2 ^ MIRACL = 2 ^ 32`, and the base constant `MAXBASE` is
`2 ^ (MIRACL - 1) = 2 ^ 31`, half that radix. -/
theorem MAXBASE_is_half_radix :
    radix = 2 ^ MIRACL ∧
    radix = 2 ^ 32 ∧
    MAXBASE = some (2 ^ (MIRACL - 1)) ∧
    MAXBASE = some (2 ^ 31) ∧
    MAXBASE = some (radix / 2) := by
  decide

/-- Claim C3: the header defines the big-endian flag `MR_BIG_ENDIAN` (once, as
its only macro naming an endianness), defines no `MR_LITTLE_ENDIAN` and no
macro whose name mentions "little" at all, so the configured byte order is
big-endian. -/
theorem big_endian_only :
    isDefined "MR_BIG_ENDIAN" = true ∧
    isDefined "MR_LITTLE_ENDIAN" = false ∧
    mirdef.filter (fun d => mentions "little" d.name) = [] ∧
    (mirdef.filter (fun d => mentions "endian" d.name)).map (fun d => d.name)
      = ["MR_BIG_ENDIAN"] ∧
    byte_order = some ByteOrder.big := by
  decide

/-- Claim C4: with the 32-bit word the header fixes, `4294967295 = 2 ^ 32 - 1`
is the largest value `to_bignum` stores in one digit, and
`to_bignum(4294967295) + to_bignum(1)` is a two-digit BigNum (digits 1 and 0,
most significant first under `MR_BIG_ENDIAN`) equal to 4294967296. -/
theorem carry_across_digit_boundary :
    MIRACL = 32 ∧
    4294967295 = 2 ^ MIRACL - 1 ∧
    to_bignum 4294967295 = [4294967295] ∧
    (∀ n, (to_bignum n).length ≤ 1 ↔ n ≤ 4294967295) ∧
    bignum_add (to_bignum 4294967295) (to_bignum 1) = [1, 0] ∧
    (bignum_add (to_bignum 4294967295) (to_bignum 1)).length = 2 ∧
    bignum_value (bignum_add (to_bignum 4294967295) (to_bignum 1)) = 4294967296 ∧
    bignum_add (to_bignum 4294967295) (to_bignum 1) = to_bignum 4294967296 := by
  refine ⟨rfl, by decide, by decide, ?_, by decide, by decide, by decide, by decide⟩
  intro n
  rw [to_bignum_length_le_one]
  have hr : radix = 4294967296 := by decide
  omega

/-- Claim C5: `MAXBASE`, the word-typed `1` shifted left by `MIRACL - 1`,
evaluates in unsigned 32-bit arithmetic to `2 ^ 31 = 2147483648`: the shift
count 31 is below the word width 32, the result is non-zero, the unreduced
product is already below `2 ^ 32` (nothing wraps), and bit 31, the top bit of
the word, is the only bit set. -/
theorem MAXBASE_value :
    MAXBASE = some 2147483648 ∧
    (2147483648 : Nat) = 2 ^ 31 ∧
    (MIRACL : Int) - 1 = 31 ∧
    mr_small.bits = 32 ∧
    (MIRACL : Int) - 1 < mr_small.bits ∧
    (2147483648 : Nat) ≠ 0 ∧
    mr_small.wrap 1 * 2 ^ 31 < 2 ^ mr_small.bits ∧
    mr_small.wrap 1 * 2 ^ 31 = 2147483648 ∧
    ∀ i, Nat.testBit 2147483648 i = true ↔ i = mr_small.bits - 1 := by
  refine ⟨by decide, by decide, by decide, rfl, by decide, by decide, by decide,
    by decide, ?_⟩
  intro i
  have h31 : mr_small.bits - 1 = 31 := by decide
  have hp : (2147483648 : Nat) = 2 ^ 31 := by decide
  rw [h31, hp, Nat.testBit_two_pow]
  simp [eq_comm]

/-- Claim C6, evaluated on the header: `mr_unsign64` is `unsigned long`, whose
declared width is `MR_LBITS = 32`, not 64; the product of the largest digit
with itself is not one of its values and is reduced to 1 when stored in it. -/
theorem mr_unsign64_declared_width :
    mr_unsign64 = CType.unsignedLong ∧
    mr_unsign64.bits = MR_LBITS ∧
    MR_LBITS = 32 ∧
    mr_unsign64.bits ≠ 64 ∧
    mr_small.holds 4294967295 = true ∧
    mr_unsign64.holds (4294967295 * 4294967295) = false ∧
    mr_unsign64.holds (2 ^ 64 - 1) = false ∧
    mr_unsign64.wrap (4294967295 * 4294967295) = 1 := by
  decide

/-- Claim C7: the precision hint covers a full word: `MR_FLASH = 52` is at
least `MIRACL = 32`, so every digit value `d < 2 ^ 32`, and `MAXBASE = 2 ^ 31`
itself, is below `2 ^ 52` and is kept unchanged by a 52-bit mantissa. -/
theorem MR_FLASH_covers_word (d : Nat) (h : d < 2 ^ MIRACL) :
    MR_FLASH = 52 ∧
    MIRACL ≤ MR_FLASH ∧
    d < 2 ^ MR_FLASH ∧
    to_mantissa MR_FLASH d = d ∧
    MAXBASE = some (2 ^ 31) ∧
    2 ^ 31 < 2 ^ MR_FLASH ∧
    to_mantissa MR_FLASH (2 ^ 31) = 2 ^ 31 := by
  have hle : MIRACL ≤ MR_FLASH := by decide
  have hd : d < 2 ^ MR_FLASH :=
    lt_of_lt_of_le h (Nat.pow_le_pow_right (by decide) hle)
  have hm : (2 : Nat) ^ 31 < 2 ^ MR_FLASH := by decide
  exact ⟨rfl, hle, hd, to_mantissa_of_lt _ _ hd, by decide, hm, to_mantissa_of_lt _ _ hm⟩

/-- Claim C7 at the largest digit, `d = 4294967295`. -/
theorem MR_FLASH_covers_word_witness :
    4294967295 < 2 ^ MIRACL ∧
    (MR_FLASH = 52 ∧
     MIRACL ≤ MR_FLASH ∧
     4294967295 < 2 ^ MR_FLASH ∧
     to_mantissa MR_FLASH 4294967295 = 4294967295 ∧
     MAXBASE = some (2 ^ 31) ∧
     2 ^ 31 < 2 ^ MR_FLASH ∧
     to_mantissa MR_FLASH (2 ^ 31) = 2 ^ 31) :=
  ⟨by decide, MR_FLASH_covers_word 4294967295 (by decide)⟩

end Mirdef
